import Mathlib

/-!
# Verification of the dvom Snapshot Storage & Encryption Engine

Shallow embedding of the core of the `dvom` volume-backup tool:

* the streaming AES-256-GCM encryption codec (`internal/crypto`):
  per-chunk nonce derivation, chunk-wise sealing/opening, the on-disk
  encryption header format, and the restore-time encrypted-flag gate;
* the snapshot versioning layer (`internal/storage/snapshot.go`) over a
  backend-agnostic object store, and the filesystem backend's `Store`
  rollback behaviour (`internal/storage/interface.go`).

Bytes are modelled as `Nat` (kept below 256 where it matters, with explicit
`% 256` where the Go code truncates), byte streams as `List Nat`, Go strings
as `List Char`, and time.Time instants as `Nat` ticks.  The AES-GCM AEAD and
the PBKDF2 key-derivation function are external library primitives, so they
are modelled as ideal functionalities: structures bundling the functional
properties (correctness of `Open` on `Seal`, ciphertext authenticity, and
injectivity on full-length keys/nonces) that the code relies on; concrete
executable instances are provided so every statement can be exercised on
concrete inputs.
-/

/-! ## Encryption codec constants (internal/crypto/encryption.go) -/

/-- `SaltSize = 32` — size of the PBKDF2 salt. -/
def SaltSize : Nat := 32

/-- `KeySize = 32` — size of the AES-256 key. -/
def KeySize : Nat := 32

/-- `NonceSize = 12` — size of the GCM nonce. -/
def NonceSize : Nat := 12

/-- `Iterations = 100000` — PBKDF2 iteration count. -/
def Iterations : Nat := 100000

/-- The 8 magic bytes `"DVOM-ENC"` that prefix every encrypted stream. -/
def magicBytes : List Nat := [68, 86, 79, 77, 45, 69, 78, 67]

/-! ## Ideal AEAD model (crypto/cipher GCM, external library)

`cipher.AEAD` with `Seal(nil, nonce, plaintext, nil)` and
`Open(nil, nonce, ciphertext, nil)` is modelled as an ideal authenticated
encryption scheme: `opn` inverts `seal`, a successful `opn` only ever
returns the plaintext of a genuine `seal` under the same key and nonce
(authenticity / no forgery), and `seal` is injective on 32-byte keys and
12-byte nonces.  `overhead` models `gcm.Overhead()`. -/

structure AEAD where
  Overhead : Nat
  Seal : List Nat → List Nat → List Nat → List Nat
  Open : List Nat → List Nat → List Nat → Option (List Nat)
  seal_length : ∀ k n pt, (Seal k n pt).length = pt.length + Overhead
  open_seal : ∀ k n pt, Open k n (Seal k n pt) = some pt
  open_sound : ∀ k n ct pt, Open k n ct = some pt → ct = Seal k n pt
  seal_injective : ∀ k k2 n n2 pt pt2, k.length = KeySize → k2.length = KeySize →
    n.length = NonceSize → n2.length = NonceSize →
    Seal k n pt = Seal k2 n2 pt2 → k = k2 ∧ n = n2 ∧ pt = pt2
  overhead_ge_two : 2 ≤ Overhead

/-! ## Ideal KDF model (golang.org/x/crypto/pbkdf2, external library)

`DeriveKey(password, salt) = pbkdf2.Key([]byte(password), salt, 100000, 32,
sha256.New)` is modelled as an abstract function producing a 32-byte key. -/

structure KDF where
  derive : String → List Nat → List Nat
  derive_length : ∀ pw salt, (derive pw salt).length = KeySize

/-- `EncryptionHeader` — the salt and base nonce carried by the header. -/
structure EncryptionHeader where
  salt : List Nat
  nonce : List Nat
deriving DecidableEq

/-! ## Per-chunk nonce derivation

`EncryptReader.Read` (lines 127-138) and `DecryptReader.Read`
(lines 220-231) both run

```go
chunkNonce := make([]byte, len(baseNonce))
copy(chunkNonce, baseNonce)
for i := 0; i < 8 && i < len(chunkNonce); i++ {
    chunkNonce[len(chunkNonce)-1-i] ^= byte(counter >> (8 * i))
}
```

The loop is translated as a fold over `i = 0..7`; the `i < len(chunkNonce)`
guard becomes the `i < acc.length` test (once it fails it keeps failing, so
continuing the fold with a no-op branch is faithful).  `byte(x)` is `% 256`
and `>>` on `uint64` is `>>>` (counters stay below `2^64` in all claims). -/

/-- Per-chunk nonce derivation as performed by `EncryptReader.Read`. -/
def encChunkNonce (baseNonce : List Nat) (counter : Nat) : List Nat :=
  (List.range 8).foldl
    (fun acc i =>
      if i < acc.length then
        acc.set (acc.length - 1 - i)
          ((acc.getD (acc.length - 1 - i) 0) ^^^ ((counter >>> (8 * i)) % 256))
      else acc)
    baseNonce

/-- Per-chunk nonce derivation as performed by `DecryptReader.Read`
(textually identical to the encrypt side in the source). -/
def decChunkNonce (baseNonce : List Nat) (counter : Nat) : List Nat :=
  (List.range 8).foldl
    (fun acc i =>
      if i < acc.length then
        acc.set (acc.length - 1 - i)
          ((acc.getD (acc.length - 1 - i) 0) ^^^ ((counter >>> (8 * i)) % 256))
      else acc)
    baseNonce

/-! ## Chunk-wise encryption and decryption streams

`EncryptReader.Read` pulls one `Read` worth of plaintext from the underlying
reader (at most 64 KiB, the buffer size), seals it with the per-chunk nonce,
and increments the counter; a read that returns `n = 0` seals nothing and
leaves the counter unchanged.  The underlying reader is modelled as the list
of byte slices its successive `Read` calls return, and the ciphertext stream
as the list of sealed chunks the encrypt reader emits (how the sealed bytes
are later split across the consumer's `Read(p)` calls does not change the
byte stream).  `DecryptReader.Read` symmetrically treats each single `Read`
result from its underlying reader as one complete sealed chunk and aborts
with `"decryption failed"` on the first chunk whose authentication fails. -/

/-- The sealed-chunk stream produced by successive `EncryptReader.Read`
calls when the underlying reader returns `chunks` in order. -/
def encryptChunks (A : AEAD) (key baseNonce : List Nat) :
    Nat → List (List Nat) → List (List Nat)
  | _, [] => []
  | counter, c :: cs =>
    if c = [] then encryptChunks A key baseNonce counter cs
    else A.Seal key (encChunkNonce baseNonce counter) c ::
      encryptChunks A key baseNonce (counter + 1) cs

/-- The result of draining `DecryptReader.Read` when the underlying reader
returns `cchunks` in order: the plaintext chunks successfully produced, and
the error (if any) that aborted the stream. -/
def decryptChunks (A : AEAD) (key baseNonce : List Nat) :
    Nat → List (List Nat) → List (List Nat) × Option String
  | _, [] => ([], none)
  | counter, c :: cs =>
    if c = [] then decryptChunks A key baseNonce counter cs
    else
      match A.Open key (decChunkNonce baseNonce counter) c with
      | none => ([], some "decryption failed")
      | some pt =>
        let rest := decryptChunks A key baseNonce (counter + 1) cs
        (pt :: rest.1, rest.2)

/-! ## Header serialization (WriteEncryptionHeader / ReadEncryptionHeader) -/

/-- `WriteEncryptionHeader`: magic bytes, version byte `1`, salt, nonce. -/
def writeEncryptionHeader (h : EncryptionHeader) : List Nat :=
  magicBytes ++ [1] ++ h.salt ++ h.nonce

/-- `ReadEncryptionHeader`: parses the header from the front of a stream and
returns it together with the unconsumed remainder (the reader's position
after the four `io.ReadFull` calls).  A short stream fails the corresponding
`io.ReadFull` with an error. -/
def readEncryptionHeader (s : List Nat) :
    Except String (EncryptionHeader × List Nat) :=
  if s.length < 8 then .error "failed to read magic bytes"
  else if s.take 8 ≠ magicBytes then .error "not an encrypted DVOM backup"
  else
    let s1 := s.drop 8
    if s1.length < 1 then .error "failed to read version"
    else if s1.take 1 ≠ [1] then .error "unsupported encryption version"
    else
      let s2 := s1.drop 1
      if s2.length < SaltSize then .error "failed to read salt"
      else
        let s3 := s2.drop SaltSize
        if s3.length < NonceSize then .error "failed to read nonce"
        else .ok (⟨s2.take SaltSize, s3.take NonceSize⟩, s3.drop NonceSize)

/-- `IsEncrypted`: `len(data) >= 8 && string(data[:8]) == "DVOM-ENC"`. -/
def IsEncrypted (data : List Nat) : Bool :=
  decide (8 ≤ data.length) && decide (data.take 8 = magicBytes)

/-! ## Restore-time decryption gate (RestoreDirectVolume)

The fragment of `Client.RestoreDirectVolume` that decides, for a retrieved
backup, whether the stream is extracted as-is, piped through decryption, or
rejected.  The first `Read` into the zero-initialized 512-byte `headerBytes`
buffer is modelled as returning `min 512 |stream|` bytes (and an error
exactly when the stream is empty, in which case the read returns `0, io.EOF`). -/

/-- Outcome of the restore pipeline's encryption gate. -/
inductive RestoreOutcome where
  | proceedPlain (data : List Nat)
  | proceedDecrypt (header : EncryptionHeader) (rest : List Nat)
  | failed (msg : String)
deriving DecidableEq

/-- The encrypted-flag gate of `RestoreDirectVolume`: when the metadata says
`Encrypted`, peek the leading bytes, require the magic header (else the
distinct corruption error), then parse salt/nonce and hand the remainder to
the decrypt transform. -/
def restoreGate (encrypted : Bool) (stream : List Nat) : RestoreOutcome :=
  if !encrypted then .proceedPlain stream
  else if stream = [] then .failed "failed to read backup header"
  else
    let n := min 512 stream.length
    let headerBytes := stream.take 512 ++ List.replicate (512 - n) 0
    if !IsEncrypted headerBytes then
      .failed "backup marked as encrypted but no encryption header found"
    else
      match readEncryptionHeader (stream.take n ++ stream.drop n) with
      | .error e => .failed ("failed to read encryption header: " ++ e)
      | .ok (h, rest) => .proceedDecrypt h rest

/-! ## Concrete executable instances of the ideal primitives

Used to exercise every statement on concrete inputs.  `padTo n l` truncates
or zero-pads `l` to exactly `n` bytes; the concrete AEAD "seals" by
prefixing the (padded) key and nonce, so its overhead is `KeySize +
NonceSize = 44` bytes, and the concrete KDF packs the password bytes and
salt into a 32-byte key. -/

/-- Truncate or zero-pad a byte list to exactly `n` entries. -/
def padTo (n : Nat) (l : List Nat) : List Nat :=
  l.take n ++ List.replicate (n - l.length) 0

theorem padTo_length (n : Nat) (l : List Nat) : (padTo n l).length = n := by
  simp [padTo]
  omega

theorem padTo_of_length (l : List Nat) (h : l.length = n) : padTo n l = l := by
  simp [padTo, h, List.take_of_length_le]

/-- Concrete seal: prefix the padded key and padded nonce. -/
def testSeal (k n pt : List Nat) : List Nat :=
  padTo KeySize k ++ padTo NonceSize n ++ pt

/-- Concrete open: check the 44-byte prefix and strip it. -/
def testOpen (k n ct : List Nat) : Option (List Nat) :=
  if KeySize + NonceSize ≤ ct.length ∧ ct.take KeySize = padTo KeySize k ∧
      (ct.drop KeySize).take NonceSize = padTo NonceSize n then
    some (ct.drop (KeySize + NonceSize))
  else none

theorem testSeal_take (k n pt : List Nat) :
    (testSeal k n pt).take KeySize = padTo KeySize k := by
  have h := padTo_length KeySize k
  simp [testSeal, List.take_append_eq_append_take, h,
    List.take_of_length_le (le_of_eq h)]

theorem testSeal_drop (k n pt : List Nat) :
    (testSeal k n pt).drop KeySize = padTo NonceSize n ++ pt := by
  have h := padTo_length KeySize k
  simp [testSeal, List.drop_append_eq_append_drop, h,
    List.drop_of_length_le (le_of_eq h)]

theorem testOpen_testSeal (k n pt : List Nat) :
    testOpen k n (testSeal k n pt) = some pt := by
  have hk := padTo_length KeySize k
  have hn := padTo_length NonceSize n
  have hlen : (testSeal k n pt).length = pt.length + (KeySize + NonceSize) := by
    simp [testSeal, hk, hn]; omega
  have hdrop : (testSeal k n pt).drop (KeySize + NonceSize) = pt := by
    rw [show KeySize + NonceSize = KeySize + NonceSize from rfl,
      ← List.drop_drop, testSeal_drop]
    simp [List.drop_append_eq_append_drop, hn,
      List.drop_of_length_le (le_of_eq hn)]
  refine if_pos ⟨by omega, testSeal_take k n pt, ?_⟩ |>.trans (by rw [hdrop])
  rw [testSeal_drop]
  simp [List.take_append_eq_append_take, hn,
    List.take_of_length_le (le_of_eq hn)]

theorem testOpen_sound (k n ct pt : List Nat) (h : testOpen k n ct = some pt) :
    ct = testSeal k n pt := by
  unfold testOpen at h
  split at h
  · rename_i hcond
    obtain ⟨hlen, htake, hmid⟩ := hcond
    cases h
    have : ct = ct.take KeySize ++ ((ct.drop KeySize).take NonceSize ++
        (ct.drop KeySize).drop NonceSize) := by
      rw [List.take_append_drop, List.take_append_drop]
    rw [List.drop_drop] at this
    rw [testSeal, ← htake, ← hmid, List.append_assoc]
    exact this
  · exact absurd h (by simp)

/-- The concrete AEAD instance. -/
def testAEAD : AEAD where
  Overhead := KeySize + NonceSize
  Seal := testSeal
  Open := testOpen
  seal_length := by
    intro k n pt
    simp [testSeal, padTo_length]
    omega
  open_seal := testOpen_testSeal
  open_sound := testOpen_sound
  seal_injective := by
    intro k k2 n n2 pt pt2 hk hk2 hn hn2 h
    rw [testSeal, testSeal, padTo_of_length k hk, padTo_of_length k2 hk2,
      padTo_of_length n hn, padTo_of_length n2 hn2] at h
    have h1 : k = k2 := by
      have := congrArg (List.take KeySize) h
      rwa [List.append_assoc, List.append_assoc,
        List.take_left' hk, List.take_left' hk2] at this
    subst h1
    have h2 : n ++ pt = n2 ++ pt2 := by
      have := congrArg (List.drop KeySize) h
      rwa [List.append_assoc, List.append_assoc,
        List.drop_left' hk, List.drop_left' hk] at this
    have h3 : n = n2 := by
      have := congrArg (List.take NonceSize) h2
      rwa [List.take_left' hn, List.take_left' hn2] at this
    subst h3
    refine ⟨rfl, rfl, ?_⟩
    have := congrArg (List.drop NonceSize) h2
    rwa [List.drop_left' hn, List.drop_left' hn] at this
  overhead_ge_two := by decide

/-- The concrete KDF instance: pack password bytes and salt into 32 bytes. -/
def testKDF : KDF where
  derive := fun pw salt => padTo KeySize (pw.toList.map Char.toNat ++ salt)
  derive_length := fun _ _ => padTo_length _ _

/-! ## Snapshot versioning layer (internal/storage/snapshot.go)

Go strings are modelled as `List Char`.  The Object Store backend behind the
`Backend` interface is modelled as the list of stored objects in the order
`List` enumerates them; `Retrieve` is exact-key lookup, `Delete` removes
every object under the key (and is idempotent), per the §4.2 contract. -/

/-- `strings.TrimSuffix`: drop one trailing occurrence of `suffix`. -/
def trimSuffix (s suffix : List Char) : List Char :=
  if suffix.isSuffixOf s then s.take (s.length - suffix.length) else s

/-- `strings.SplitN(id, "@", 2)[1]`: everything after the first `'@'`. -/
def afterFirstAt (id : List Char) : List Char :=
  (id.dropWhile (fun ch => ch ≠ '@')).drop 1

/-- `cleanSnapshotName`: strip archive extensions, replace path separators. -/
def cleanSnapshotName (name : List Char) : List Char :=
  let n1 := trimSuffix name ".tar.gz".toList
  let n2 := trimSuffix n1 ".zip".toList
  let n3 := n2.map (fun ch => if ch = '/' then '-' else ch)
  n3.map (fun ch => if ch = '\\' then '-' else ch)

/-- The fields of `BackupMetadata` the versioning layer reads. -/
structure BackupMetadata where
  id : List Char
  size : Nat
  createdAt : Nat
  description : List Char
  version : List Char
  encrypted : Bool
deriving DecidableEq

/-- One object held by a storage backend: its metadata record (whose `id`
is the storage key, as `StoreSnapshot` writes it) and its data blob. -/
structure StoredObject where
  meta : BackupMetadata
  data : List Nat
deriving DecidableEq

/-- A backend state: the stored objects in backend `List` order. -/
abbrev Backend := List StoredObject

/-- `Backend.List`: enumerate all stored metadata records. -/
def backendList (b : Backend) : List BackupMetadata :=
  b.map (fun o => o.meta)

/-- `Backend.Retrieve`: exact-key lookup. -/
def backendRetrieve (b : Backend) (id : List Char) : Option StoredObject :=
  b.find? (fun o => decide (o.meta.id = id))

/-- `Backend.Retrieve` with the not-found error surfaced, as `GetSnapshot`
sees it. -/
def backendRetrieveE (b : Backend) (id : List Char) :
    Except String StoredObject :=
  match backendRetrieve b id with
  | some o => .ok o
  | none => .error ("backup not found: " ++ String.mk id)

/-- `Backend.Delete`: remove every object stored under `id` (idempotent). -/
def backendDelete (b : Backend) (id : List Char) : Backend :=
  b.filter (fun o => decide (o.meta.id ≠ id))

/-- `VersionInfo` — per-version projection returned by `ListVersions`. -/
structure VersionInfo where
  version : List Char
  size : Nat
  createdAt : Nat
  description : List Char
deriving DecidableEq

/-- `SnapshotStorage.ListVersions`: scan the backend listing for ids with
prefix `name@` and project each into a `VersionInfo` (the `len(parts) == 2`
check always holds once the prefix check passed, since the prefix contains
`'@'`). -/
def listVersions (b : Backend) (name0 : List Char) : List VersionInfo :=
  let name := cleanSnapshotName name0
  (backendList b).filterMap (fun m =>
    if (name ++ ['@']).isPrefixOf m.id then
      some ⟨afterFirstAt m.id, m.size, m.createdAt, m.description⟩
    else none)

/-- `SnapshotStorage.GetLatestVersion`: the version token of the entry with
the greatest `CreatedAt` (`time.Time.After` is strict `>`; the running
maximum starts at `versions[0]` and is replaced only on strict increase). -/
def getLatestVersion (b : Backend) (name : List Char) :
    Except String (List Char) :=
  match listVersions b name with
  | [] => .error ("no versions found for snapshot " ++ String.mk name)
  | v0 :: tl =>
    .ok ((v0 :: tl).foldl
      (fun latest v => if latest.createdAt < v.createdAt then v else latest)
      v0).version

/-- `SnapshotStorage.GetSnapshot`: versioned ids are retrieved directly;
bare names resolve the latest version first. -/
def getSnapshot (b : Backend) (nameOrVersioned : List Char) :
    Except String StoredObject :=
  let s := cleanSnapshotName nameOrVersioned
  if '@' ∈ s then backendRetrieveE b s
  else
    match getLatestVersion b s with
    | .error e => .error e
    | .ok v => backendRetrieveE b (s ++ '@' :: v)

/-- `SnapshotStorage.DeleteSnapshot`: a versioned id deletes exactly that
key; a bare name deletes every listed version and fails if none exist. -/
def deleteSnapshot (b : Backend) (nameOrVersioned : List Char) :
    Except String Backend :=
  let s := cleanSnapshotName nameOrVersioned
  if '@' ∈ s then .ok (backendDelete b s)
  else
    match listVersions b s with
    | [] => .error ("no snapshots found with name " ++ String.mk s)
    | v0 :: tl =>
      .ok ((v0 :: tl).foldl
        (fun acc v => backendDelete acc (s ++ '@' :: v.version)) b)

/-! ## Filesystem backend Store (internal/storage/local.go)

The filesystem is an association list from paths to file contents.
`LocalStorage.Store` creates `<base>/<id>.tar.gz`, copies the data stream
into it, creates `<base>/<id>.json` and JSON-encodes the metadata into it;
each of the four fallible steps is represented by a fault flag, and on
failure the code removes the files it has written so far before returning
the error.  The metadata blob is opaque bytes (JSON encoding abstracted). -/

abbrev FileSys := List (List Char × List Nat)

/-- Content of `path`, if the file exists. -/
def fsLookup (fs : FileSys) (path : List Char) : Option (List Nat) :=
  (fs.find? (fun e => decide (e.1 = path))).map (fun e => e.2)

/-- Create/overwrite `path` with `content` (`os.Create` then writes). -/
def fsWrite (fs : FileSys) (path : List Char) (content : List Nat) : FileSys :=
  (path, content) :: fs.filter (fun e => decide (e.1 ≠ path))

/-- `os.Remove`. -/
def fsRemove (fs : FileSys) (path : List Char) : FileSys :=
  fs.filter (fun e => decide (e.1 ≠ path))

/-- Which of `LocalStorage.Store`'s four fallible steps fail. -/
structure StoreFaults where
  createDataFails : Bool
  copyDataFails : Bool
  createMetaFails : Bool
  encodeMetaFails : Bool

/-- `LocalStorage.Store` with explicit fault injection, returning the
resulting filesystem and the error, if any. -/
def localStore (fs : FileSys) (basePath id : List Char) (data meta : List Nat)
    (f : StoreFaults) : FileSys × Option String :=
  let backupPath := basePath ++ '/' :: id
  let dataPath := backupPath ++ ".tar.gz".toList
  let metaPath := backupPath ++ ".json".toList
  if f.createDataFails then (fs, some "failed to create backup file")
  else
    let fs1 := fsWrite fs dataPath []
    if f.copyDataFails then
      (fsRemove fs1 dataPath, some "failed to write backup data")
    else
      let fs2 := fsWrite fs1 dataPath data
      if f.createMetaFails then
        (fsRemove fs2 dataPath, some "failed to create metadata file")
      else
        let fs3 := fsWrite fs2 metaPath []
        if f.encodeMetaFails then
          (fsRemove (fsRemove fs3 dataPath) metaPath,
            some "failed to write metadata")
        else (fsWrite fs3 metaPath meta, none)

/-! ## Codec helper lemmas -/

/-- The nonce-derivation code on the decrypt side is the same computation as
on the encrypt side. -/
theorem decChunkNonce_eq_encChunkNonce (base : List Nat) (counter : Nat) :
    decChunkNonce base counter = encChunkNonce base counter := rfl

/-- Nonce derivation preserves the nonce length. -/
theorem encChunkNonce_length (base : List Nat) (counter : Nat) :
    (encChunkNonce base counter).length = base.length := by
  unfold encChunkNonce
  generalize List.range 8 = l
  induction l generalizing base with
  | nil => rfl
  | cons i tl ih =>
    simp only [List.foldl_cons]
    split
    · rw [ih]; exact List.length_set ..
    · exact ih base

/-- Chunk-wise decryption inverts chunk-wise encryption at every counter
value: exactly the nonempty plaintext reads come back, with no error. -/
theorem decryptChunks_encryptChunks (A : AEAD) (key baseNonce : List Nat) :
    ∀ (cs : List (List Nat)) (counter : Nat),
      decryptChunks A key baseNonce counter
        (encryptChunks A key baseNonce counter cs) =
      (cs.filter (fun c => decide (c ≠ [])), none) := by
  intro cs
  induction cs with
  | nil => intro counter; rfl
  | cons c cs ih =>
    intro counter
    by_cases hc : c = []
    · subst hc
      simp only [encryptChunks, if_pos rfl, List.filter_cons]
      simpa using ih counter
    · have hseal : A.Seal key (encChunkNonce baseNonce counter) c ≠ [] := by
        intro hnil
        have := A.seal_length key (encChunkNonce baseNonce counter) c
        rw [hnil] at this
        have : c.length = 0 := by
          have h2 := A.overhead_ge_two
          simp at this
          omega
        exact hc (List.eq_nil_of_length_eq_zero this)
      simp only [encryptChunks, if_neg hc, decryptChunks, if_neg hseal,
        decChunkNonce_eq_encChunkNonce, A.open_seal, List.filter_cons]
      rw [ih (counter + 1)]
      simp [hc]

/-- Dropping empty chunks does not change the concatenated byte stream. -/
theorem flatten_filter_ne_nil (cs : List (List Nat)) :
    (cs.filter (fun c => decide (c ≠ []))).flatten = cs.flatten := by
  induction cs with
  | nil => rfl
  | cons c cs ih =>
    have ih2 : (List.filter (fun c => !decide (c = [])) cs).flatten =
        cs.flatten := by simpa using ih
    simp only [List.filter_cons]
    split
    · simp [ih2]
    · rename_i h
      have hc : c = [] := by simpa using h
      simp [hc, ih2]

/-- Parsing a written header recovers it, leaving the payload untouched. -/
theorem readHeader_writeHeader (h : EncryptionHeader) (rest : List Nat)
    (hs : h.salt.length = SaltSize) (hn : h.nonce.length = NonceSize) :
    readEncryptionHeader (writeEncryptionHeader h ++ rest) = .ok (h, rest) := by
  obtain ⟨salt, nonce⟩ := h
  simp only at hs hn
  have harr : writeEncryptionHeader ⟨salt, nonce⟩ ++ rest =
      magicBytes ++ (1 :: (salt ++ (nonce ++ rest))) := by
    simp [writeEncryptionHeader]
  rw [harr, readEncryptionHeader]
  have hm8 : magicBytes.length = 8 := rfl
  rw [if_neg (by rw [List.length_append, hm8]; omega)]
  have htk8 : (magicBytes ++ (1 :: (salt ++ (nonce ++ rest)))).take 8 =
      magicBytes := List.take_left' hm8
  rw [if_neg (by rw [htk8]; simp)]
  have hdp8 : (magicBytes ++ (1 :: (salt ++ (nonce ++ rest)))).drop 8 =
      1 :: (salt ++ (nonce ++ rest)) := List.drop_left' hm8
  rw [hdp8]
  rw [if_neg (by simp)]
  rw [if_neg (by simp)]
  simp only [List.drop_succ_cons, List.drop_zero]
  rw [if_neg (by rw [List.length_append, hs]; omega)]
  rw [List.drop_left' hs]
  rw [if_neg (by rw [List.length_append, hn]; omega)]
  rw [List.take_left' hs, List.take_left' hn, List.drop_left' hn]

/-- Any stream the header parser accepts has exactly the written layout:
magic, version byte 1, a 32-byte salt, a 12-byte nonce, then the payload. -/
theorem readHeader_shape (s : List Nat) (h : EncryptionHeader)
    (rest : List Nat) (hok : readEncryptionHeader s = .ok (h, rest)) :
    s = magicBytes ++ 1 :: (h.salt ++ (h.nonce ++ rest)) ∧
    h.salt.length = SaltSize ∧ h.nonce.length = NonceSize := by
  unfold readEncryptionHeader at hok
  simp only [] at hok
  split at hok
  · exact absurd hok (by simp)
  rename_i h8
  split at hok
  · exact absurd hok (by simp)
  rename_i hmagic
  split at hok
  · exact absurd hok (by simp)
  rename_i h1len
  split at hok
  · exact absurd hok (by simp)
  rename_i hver
  split at hok
  · exact absurd hok (by simp)
  rename_i h32len
  split at hok
  · exact absurd hok (by simp)
  rename_i h12len
  rw [Except.ok.injEq, Prod.mk.injEq] at hok
  obtain ⟨hh, hrest⟩ := hok
  subst hh hrest
  push_neg at h8 hmagic h1len hver h32len h12len
  refine ⟨?_, ?_, ?_⟩
  · conv_lhs => rw [← List.take_append_drop 8 s, hmagic,
      ← List.take_append_drop 1 (s.drop 8), hver,
      ← List.take_append_drop SaltSize ((s.drop 8).drop 1),
      ← List.take_append_drop NonceSize (((s.drop 8).drop 1).drop SaltSize)]
    simp
  · simp only [List.length_take]
    omega
  · simp only [List.length_take]
    omega

/-- C4: `ReadEncryptionHeader` accepts exactly streams whose prefix is the
magic tag `"DVOM-ENC"`, version byte `1`, a 32-byte salt and a 12-byte
nonce (returning that salt and nonce and rejecting every other prefix with
an error, purely as a parse, before any decryption), and
`WriteEncryptionHeader` emits exactly this 53-byte layout, so reading back
a written header reproduces it. -/
theorem c4_header_format :
    (∀ (h : EncryptionHeader) (rest : List Nat), h.salt.length = SaltSize →
      h.nonce.length = NonceSize →
      readEncryptionHeader (writeEncryptionHeader h ++ rest) = .ok (h, rest) ∧
      (writeEncryptionHeader h).length = 53) ∧
    (∀ (s : List Nat) (h : EncryptionHeader) (rest : List Nat),
      readEncryptionHeader s = .ok (h, rest) →
      s = magicBytes ++ 1 :: (h.salt ++ (h.nonce ++ rest)) ∧
      h.salt.length = SaltSize ∧ h.nonce.length = NonceSize) :=
  ⟨fun h rest hs hn =>
    ⟨readHeader_writeHeader h rest hs hn, by
      simp [writeEncryptionHeader, magicBytes, hs, hn, SaltSize, NonceSize]⟩,
   readHeader_shape⟩

/-- Witness for C4 at a concrete header and payload. -/
theorem c4_header_format_witness :
    readEncryptionHeader (writeEncryptionHeader
        ⟨List.replicate 32 2, List.replicate 12 3⟩ ++ [9]) =
      .ok (⟨List.replicate 32 2, List.replicate 12 3⟩, [9]) ∧
    (writeEncryptionHeader ⟨List.replicate 32 2, List.replicate 12 3⟩).length
      = 53 :=
  c4_header_format.1 ⟨List.replicate 32 2, List.replicate 12 3⟩ [9]
    (by simp [SaltSize]) (by simp [NonceSize])

/-- C1: piping a plaintext stream through `EncryptReader` (prefixed by its
header) and back through `DecryptReader` with the same password and the
parsed header reproduces the plaintext byte-for-byte: the header parses back
to the same salt/nonce with the ciphertext untouched, every sealed chunk
opens, no error is reported, and the concatenated plaintext equals the
original. -/
theorem c1_encrypt_decrypt_roundtrip (A : AEAD) (kdf : KDF) (pw : String)
    (salt nonce : List Nat) (chunks : List (List Nat))
    (hs : salt.length = SaltSize) (hn : nonce.length = NonceSize) :
    readEncryptionHeader (writeEncryptionHeader ⟨salt, nonce⟩ ++
        (encryptChunks A (kdf.derive pw salt) nonce 0 chunks).flatten) =
      .ok (⟨salt, nonce⟩,
        (encryptChunks A (kdf.derive pw salt) nonce 0 chunks).flatten) ∧
    decryptChunks A (kdf.derive pw salt) nonce 0
        (encryptChunks A (kdf.derive pw salt) nonce 0 chunks) =
      (chunks.filter (fun c => decide (c ≠ [])), none) ∧
    (decryptChunks A (kdf.derive pw salt) nonce 0
        (encryptChunks A (kdf.derive pw salt) nonce 0 chunks)).1.flatten =
      chunks.flatten :=
  ⟨readHeader_writeHeader ⟨salt, nonce⟩ _ hs hn,
   decryptChunks_encryptChunks A (kdf.derive pw salt) nonce chunks 0,
   by
    rw [decryptChunks_encryptChunks A (kdf.derive pw salt) nonce chunks 0]
    exact flatten_filter_ne_nil chunks⟩

/-- Witness for C1: a two-chunk plaintext round-trips under the concrete
AEAD and KDF instances. -/
theorem c1_encrypt_decrypt_roundtrip_witness :
    decryptChunks testAEAD (testKDF.derive "pw" (List.replicate 32 0))
        (List.replicate 12 0) 0
        (encryptChunks testAEAD (testKDF.derive "pw" (List.replicate 32 0))
          (List.replicate 12 0) 0 [[1, 2], [3]]) =
      ([[1, 2], [3]], none) ∧
    (decryptChunks testAEAD (testKDF.derive "pw" (List.replicate 32 0))
        (List.replicate 12 0) 0
        (encryptChunks testAEAD (testKDF.derive "pw" (List.replicate 32 0))
          (List.replicate 12 0) 0 [[1, 2], [3]])).1.flatten = [1, 2, 3] :=
  ⟨(c1_encrypt_decrypt_roundtrip testAEAD testKDF "pw" (List.replicate 32 0)
      (List.replicate 12 0) [[1, 2], [3]] (by simp [SaltSize])
      (by simp [NonceSize])).2.1,
   (c1_encrypt_decrypt_roundtrip testAEAD testKDF "pw" (List.replicate 32 0)
      (List.replicate 12 0) [[1, 2], [3]] (by simp [SaltSize])
      (by simp [NonceSize])).2.2⟩

/-! ## C3: distinctness of derived chunk nonces -/

/-- XOR-ing a fixed value is injective. -/
theorem xor_left_inj {a x y : Nat} (h : a ^^^ x = a ^^^ y) : x = y := by
  have h2 := congrArg (fun z => a ^^^ z) h
  simpa [← Nat.xor_assoc, Nat.xor_self, Nat.zero_xor] using h2

/-- On a 12-byte base nonce the derivation loop XORs the counter's
little-endian bytes into positions 11 down to 4. -/
theorem encChunkNonce_twelve (b0 b1 b2 b3 b4 b5 b6 b7 b8 b9 b10 b11 c : Nat) :
    encChunkNonce [b0, b1, b2, b3, b4, b5, b6, b7, b8, b9, b10, b11] c =
      [b0, b1, b2, b3,
       b4 ^^^ ((c >>> (8 * 7)) % 256),
       b5 ^^^ ((c >>> (8 * 6)) % 256),
       b6 ^^^ ((c >>> (8 * 5)) % 256),
       b7 ^^^ ((c >>> (8 * 4)) % 256),
       b8 ^^^ ((c >>> (8 * 3)) % 256),
       b9 ^^^ ((c >>> (8 * 2)) % 256),
       b10 ^^^ ((c >>> (8 * 1)) % 256),
       b11 ^^^ ((c >>> (8 * 0)) % 256)] := by
  have hr : List.range 8 = [0, 1, 2, 3, 4, 5, 6, 7] := by rfl
  unfold encChunkNonce
  rw [hr]
  simp

/-- A number below `2^64` is determined by its eight low-order bytes. -/
theorem bytes_low_inj (i j : Nat) (hi : i < 2 ^ 64) (hj : j < 2 ^ 64)
    (h : ∀ k, k < 8 → (i >>> (8 * k)) % 256 = (j >>> (8 * k)) % 256) :
    i = j := by
  have step : ∀ k, k ≤ 8 → i % 2 ^ (8 * k) = j % 2 ^ (8 * k) := by
    intro k
    induction k with
    | zero => simp [Nat.mod_one]
    | succ k ih =>
      intro hk
      have e1 : i % 2 ^ (8 * (k + 1)) =
          i % 2 ^ (8 * k) + 2 ^ (8 * k) * ((i >>> (8 * k)) % 256) := by
        rw [show 8 * (k + 1) = 8 * k + 8 from by ring, pow_add,
          show (2 : Nat) ^ 8 = 256 from by norm_num, Nat.mod_mul,
          Nat.shiftRight_eq_div_pow]
      have e2 : j % 2 ^ (8 * (k + 1)) =
          j % 2 ^ (8 * k) + 2 ^ (8 * k) * ((j >>> (8 * k)) % 256) := by
        rw [show 8 * (k + 1) = 8 * k + 8 from by ring, pow_add,
          show (2 : Nat) ^ 8 = 256 from by norm_num, Nat.mod_mul,
          Nat.shiftRight_eq_div_pow]
      rw [e1, e2, ih (by omega), h k (by omega)]
  have h64 := step 8 le_rfl
  rwa [show 8 * 8 = 64 from rfl, Nat.mod_eq_of_lt hi,
    Nat.mod_eq_of_lt hj] at h64

/-- C3: for a 12-byte base nonce, the derived per-chunk nonces for any two
distinct chunk counters below `2^64` (so in particular for any `N ≤ 2^32`
chunks) are distinct, and the encrypt-side and decrypt-side derivations
agree on every counter. -/
theorem c3_chunk_nonce_distinct :
    (∀ (base : List Nat) (i j : Nat), base.length = NonceSize →
      i < 2 ^ 64 → j < 2 ^ 64 → i ≠ j →
      encChunkNonce base i ≠ encChunkNonce base j) ∧
    (∀ (base : List Nat) (counter : Nat),
      encChunkNonce base counter = decChunkNonce base counter) := by
  constructor
  · intro base i j hlen hi hj hij heq
    rcases base with _ | ⟨b0, _ | ⟨b1, _ | ⟨b2, _ | ⟨b3, _ | ⟨b4, _ | ⟨b5,
      _ | ⟨b6, _ | ⟨b7, _ | ⟨b8, _ | ⟨b9, _ | ⟨b10, _ | ⟨b11,
      _ | ⟨b12, tail⟩⟩⟩⟩⟩⟩⟩⟩⟩⟩⟩⟩⟩
    all_goals (try simp [NonceSize] at hlen)
    rw [encChunkNonce_twelve, encChunkNonce_twelve] at heq
    simp only [List.cons.injEq, and_true, true_and] at heq
    obtain ⟨e7, e6, e5, e4, e3, e2, e1, e0⟩ := heq
    refine hij (bytes_low_inj i j hi hj ?_)
    intro k hk
    interval_cases k
    · exact xor_left_inj e0
    · exact xor_left_inj e1
    · exact xor_left_inj e2
    · exact xor_left_inj e3
    · exact xor_left_inj e4
    · exact xor_left_inj e5
    · exact xor_left_inj e6
    · exact xor_left_inj e7
  · intro base counter
    rfl

/-- Witness for C3 at a concrete base nonce and counters 0 and 1. -/
theorem c3_chunk_nonce_distinct_witness :
    encChunkNonce (List.replicate 12 0) 0 ≠
      encChunkNonce (List.replicate 12 0) 1 ∧
    encChunkNonce (List.replicate 12 0) 5 =
      decChunkNonce (List.replicate 12 0) 5 :=
  ⟨c3_chunk_nonce_distinct.1 (List.replicate 12 0) 0 1 (by simp [NonceSize])
      (by norm_num) (by norm_num) (by decide),
   c3_chunk_nonce_distinct.2 (List.replicate 12 0) 5⟩

/-! ## C2: fail-closed decryption -/

/-- When the plaintext stream contains any data at all, the encrypted
stream starts with the seal of its first nonempty read under counter 0. -/
theorem encryptChunks_first (A : AEAD) (key baseNonce : List Nat)
    (cs : List (List Nat)) (counter : Nat) (h : ∃ c ∈ cs, c ≠ []) :
    ∃ c rest, c ≠ [] ∧ encryptChunks A key baseNonce counter cs =
      A.Seal key (encChunkNonce baseNonce counter) c :: rest := by
  induction cs generalizing counter with
  | nil => simp at h
  | cons c0 cs ih =>
    by_cases hc : c0 = []
    · subst hc
      have h2 : ∃ c ∈ cs, c ≠ [] := by
        obtain ⟨c, hm, hne⟩ := h
        cases hm with
        | head => exact absurd rfl hne
        | tail _ hm => exact ⟨c, hm, hne⟩
      rw [show encryptChunks A key baseNonce counter ([] :: cs) =
        encryptChunks A key baseNonce counter cs from by simp [encryptChunks]]
      exact ih counter h2
    · exact ⟨c0, encryptChunks A key baseNonce (counter + 1) cs, hc,
        by simp [encryptChunks, hc]⟩

/-- A sealed chunk is never empty (a chunk is only sealed when the
underlying read returned data, and sealing adds the tag overhead). -/
theorem seal_ne_nil (A : AEAD) (key n pt : List Nat) :
    A.Seal key n pt ≠ [] := by
  intro h
  have hl := A.seal_length key n pt
  rw [h] at hl
  have h2 := A.overhead_ge_two
  simp at hl
  omega

/-- C2: decryption fails closed.  (1) On any chunk whose authentication
does not verify under the derived key and per-chunk nonce,
`DecryptReader.Read` reports the decryption error and yields zero plaintext
bytes from that chunk — nothing from it, or from any later chunk, is ever
emitted.  (2) In particular, decrypting a stream that was encrypted under a
password whose derived key differs (any wrong password, for an ideal KDF)
fails on the very first chunk with the authentication error and produces no
plaintext at all. -/
theorem c2_auth_failure_fails_closed (A : AEAD) (kdf : KDF) (pw pw2 : String)
    (salt nonce : List Nat) (chunks : List (List Nat)) :
    (∀ (key baseNonce : List Nat) (counter : Nat) (c : List Nat)
        (cs : List (List Nat)), c ≠ [] →
      A.Open key (decChunkNonce baseNonce counter) c = none →
      decryptChunks A key baseNonce counter (c :: cs) =
        ([], some "decryption failed")) ∧
    (salt.length = SaltSize → nonce.length = NonceSize →
      kdf.derive pw2 salt ≠ kdf.derive pw salt →
      (∃ c ∈ chunks, c ≠ []) →
      decryptChunks A (kdf.derive pw2 salt) nonce 0
        (encryptChunks A (kdf.derive pw salt) nonce 0 chunks) =
        ([], some "decryption failed")) := by
  constructor
  · intro key baseNonce counter c cs hc hopen
    unfold decryptChunks
    rw [if_neg hc, hopen]
  · intro hs hn hkey hdata
    obtain ⟨c, rest, hc, henc⟩ :=
      encryptChunks_first A (kdf.derive pw salt) nonce chunks 0 hdata
    rw [henc]
    have hopen : A.Open (kdf.derive pw2 salt) (decChunkNonce nonce 0)
        (A.Seal (kdf.derive pw salt) (encChunkNonce nonce 0) c) = none := by
      cases hO : A.Open (kdf.derive pw2 salt) (decChunkNonce nonce 0)
          (A.Seal (kdf.derive pw salt) (encChunkNonce nonce 0) c) with
      | none => rfl
      | some q =>
        exfalso
        have hsound := A.open_sound _ _ _ _ hO
        have hnlen : (encChunkNonce nonce 0).length = NonceSize := by
          rw [encChunkNonce_length]; exact hn
        have hinj := A.seal_injective (kdf.derive pw salt)
          (kdf.derive pw2 salt) (encChunkNonce nonce 0)
          (decChunkNonce nonce 0) c q (kdf.derive_length pw salt)
          (kdf.derive_length pw2 salt) hnlen
          (by rw [decChunkNonce_eq_encChunkNonce]; exact hnlen) hsound
        exact hkey hinj.1.symm
    unfold decryptChunks
    rw [if_neg (seal_ne_nil A _ _ _), hopen]

/-- Witness for C2: a junk chunk fails authentication, and a stream
encrypted under password "a" decrypts to nothing but an error under
password "b". -/
theorem c2_auth_failure_fails_closed_witness :
    decryptChunks testAEAD (List.replicate 32 0) (List.replicate 12 0) 0
      [[0]] = ([], some "decryption failed") ∧
    decryptChunks testAEAD (testKDF.derive "b" (List.replicate 32 0))
      (List.replicate 12 0) 0
      (encryptChunks testAEAD (testKDF.derive "a" (List.replicate 32 0))
        (List.replicate 12 0) 0 [[7]]) = ([], some "decryption failed") :=
  ⟨(c2_auth_failure_fails_closed testAEAD testKDF "a" "b"
      (List.replicate 32 0) (List.replicate 12 0) [[7]]).1
      (List.replicate 32 0) (List.replicate 12 0) 0 [0] []
      (by decide) (by decide),
   (c2_auth_failure_fails_closed testAEAD testKDF "a" "b"
      (List.replicate 32 0) (List.replicate 12 0) [[7]]).2
      (by simp [SaltSize]) (by simp [NonceSize]) (by decide)
      ⟨[7], by simp, by simp⟩⟩

/-! ## C10: decryption depends on reproducing the encrypt-side chunking -/

/-- C10: `DecryptReader` carries no chunk framing — each single underlying
`Read` result is treated as one sealed chunk.  Decrypting the sealed chunk
as one read succeeds, but re-chunking the very same ciphertext bytes across
two reads (splitting after the first byte) makes decryption with the
correct key fail with the authentication error. -/
theorem c10_chunk_framing (A : AEAD) (key nonce pt : List Nat)
    (_hpt : pt ≠ []) :
    (decryptChunks A key nonce 0
        [A.Seal key (encChunkNonce nonce 0) pt] = ([pt], none)) ∧
    ((A.Seal key (encChunkNonce nonce 0) pt).take 1 ++
        (A.Seal key (encChunkNonce nonce 0) pt).drop 1 =
      A.Seal key (encChunkNonce nonce 0) pt) ∧
    (decryptChunks A key nonce 0
        [(A.Seal key (encChunkNonce nonce 0) pt).take 1,
         (A.Seal key (encChunkNonce nonce 0) pt).drop 1] =
      ([], some "decryption failed")) := by
  refine ⟨?_, List.take_append_drop 1 _, ?_⟩
  · unfold decryptChunks
    rw [if_neg (seal_ne_nil A _ _ _), decChunkNonce_eq_encChunkNonce,
      A.open_seal]
    rfl
  · have hslen : (A.Seal key (encChunkNonce nonce 0) pt).length =
        pt.length + A.Overhead := A.seal_length ..
    have htne : (A.Seal key (encChunkNonce nonce 0) pt).take 1 ≠ [] := by
      cases hS : A.Seal key (encChunkNonce nonce 0) pt with
      | nil => exact absurd hS (seal_ne_nil A _ _ _)
      | cons a t => simp
    have hopen : A.Open key (decChunkNonce nonce 0)
        ((A.Seal key (encChunkNonce nonce 0) pt).take 1) = none := by
      cases hO : A.Open key (decChunkNonce nonce 0)
          ((A.Seal key (encChunkNonce nonce 0) pt).take 1) with
      | none => rfl
      | some q =>
        exfalso
        have hsound := A.open_sound _ _ _ _ hO
        have hlen := congrArg List.length hsound
        rw [A.seal_length] at hlen
        simp [List.length_take] at hlen
        have h2 := A.overhead_ge_two
        omega
    unfold decryptChunks
    rw [if_neg htne, hopen]

/-- Witness for C10: a one-byte plaintext decrypts when delivered as one
chunk and fails when the ciphertext is split across two reads. -/
theorem c10_chunk_framing_witness :
    decryptChunks testAEAD (List.replicate 32 0) (List.replicate 12 0) 0
      [(testAEAD.Seal (List.replicate 32 0)
          (encChunkNonce (List.replicate 12 0) 0) [5]).take 1,
       (testAEAD.Seal (List.replicate 32 0)
          (encChunkNonce (List.replicate 12 0) 0) [5]).drop 1] =
      ([], some "decryption failed") :=
  (c10_chunk_framing testAEAD (List.replicate 32 0) (List.replicate 12 0)
    [5] (by decide)).2.2

/-! ## C5: restore-time encrypted-flag gate -/

/-- If the retrieved stream does not begin with the magic tag, the peeked
512-byte buffer (zero-padded when the stream is short) fails the
`IsEncrypted` check: the magic bytes are all nonzero, so zero padding can
never complete a partial match. -/
theorem isEncrypted_false_of_not_magic (s : List Nat)
    (htk : s.take 8 ≠ magicBytes) :
    IsEncrypted (s.take 512 ++ List.replicate (512 - min 512 s.length) 0) =
      false := by
  have hne : (s.take 512 ++
      List.replicate (512 - min 512 s.length) 0).take 8 ≠ magicBytes := by
    by_cases hlen : 8 ≤ s.length
    · have h1 : (s.take 512 ++
          List.replicate (512 - min 512 s.length) 0).take 8 = s.take 8 := by
        rw [List.take_append_eq_append_take]
        have ht : (s.take 512).take 8 = s.take 8 := by
          rw [List.take_take]
          norm_num
        have hl : (s.take 512).length = min 512 s.length :=
          List.length_take ..
        have hz : 8 - (s.take 512).length = 0 := by rw [hl]; omega
        rw [ht, hz]
        simp
      rw [h1]; exact htk
    · push_neg at hlen
      intro heq
      have hs512 : s.take 512 = s := List.take_of_length_le (by omega)
      have hmin : min 512 s.length = s.length := by omega
      rw [hs512, hmin, List.take_append_eq_append_take,
        List.take_of_length_le (by omega : s.length ≤ 8),
        List.take_replicate] at heq
      have hmin2 : min (8 - s.length) (512 - s.length) = 8 - s.length := by
        omega
      rw [hmin2] at heq
      have hget := congrArg (fun l => l.getD s.length 0) heq
      simp only at hget
      rw [List.getD_append_right s (List.replicate (8 - s.length) 0) 0
        s.length (le_refl s.length), Nat.sub_self] at hget
      have h8 : 8 - s.length = (8 - s.length - 1) + 1 := by omega
      rw [h8, List.replicate_succ] at hget
      simp only [List.getD_cons_zero] at hget
      have hlt : s.length < 8 := hlen
      set m := s.length with hm
      interval_cases m <;> simp [magicBytes] at hget
  have hd : decide ((s.take 512 ++
      List.replicate (512 - min 512 s.length) 0).take 8 = magicBytes) =
      false := decide_eq_false hne
  simp [IsEncrypted, hd]

/-- Counterexample to C5 as stated: for a backup flagged encrypted whose
data stream is empty, the restore gate fails with the header-read error,
not the distinct "backup marked as encrypted but no encryption header
found" corruption error the claim promises. -/
theorem c5_counterexample :
    restoreGate true [] = .failed "failed to read backup header" ∧
    restoreGate true [] ≠
      .failed "backup marked as encrypted but no encryption header found" :=
  ⟨rfl, by decide⟩

/-- C5 (amended): for a backup flagged encrypted whose stream does not
begin with the magic tag, the restore gate always fails — with the
distinct corruption error whenever the stream is nonempty, and with a
header-read error on an empty stream — and in particular never treats the
stream as plaintext and never proceeds to decryption/extraction. -/
theorem c5_encrypted_flag_gate (stream : List Nat)
    (hmagic : stream.take 8 ≠ magicBytes) :
    ∃ msg, restoreGate true stream = .failed msg ∧
      (stream ≠ [] →
        msg = "backup marked as encrypted but no encryption header found") := by
  by_cases hnil : stream = []
  · subst hnil
    exact ⟨"failed to read backup header", rfl, by simp⟩
  · refine ⟨"backup marked as encrypted but no encryption header found",
      ?_, fun _ => rfl⟩
    have hIE := isEncrypted_false_of_not_magic stream hmagic
    simp [restoreGate, hnil, hIE]

/-- Witness for the amended C5 on a concrete non-magic stream. -/
theorem c5_encrypted_flag_gate_witness :
    ∃ msg, restoreGate true [1, 2, 3] = .failed msg ∧
      (([1, 2, 3] : List Nat) ≠ [] →
        msg = "backup marked as encrypted but no encryption header found") :=
  c5_encrypted_flag_gate [1, 2, 3] (by decide)

/-! ## Storage layer helper lemmas -/

/-- Membership in `ListVersions` output: exactly the projections of listed
metadata whose id has the `name@` prefix. -/
theorem mem_listVersions (b : Backend) (name0 : List Char) (v : VersionInfo) :
    v ∈ listVersions b name0 ↔ ∃ m ∈ backendList b,
      (cleanSnapshotName name0 ++ ['@']).isPrefixOf m.id = true ∧
      v = ⟨afterFirstAt m.id, m.size, m.createdAt, m.description⟩ := by
  unfold listVersions
  rw [List.mem_filterMap]
  constructor
  · rintro ⟨m, hm, hf⟩
    by_cases hp : (cleanSnapshotName name0 ++ ['@']).isPrefixOf m.id
    · rw [if_pos hp] at hf
      exact ⟨m, hm, hp, (Option.some.injEq _ _ ▸ hf).symm⟩
    · rw [if_neg hp] at hf
      cases hf
  · rintro ⟨m, hm, hp, rfl⟩
    exact ⟨m, hm, by rw [if_pos hp]⟩

/-- Splitting at the first separator inverts `name@rest` concatenation when
the name itself is separator-free. -/
theorem afterFirstAt_append (name rest : List Char) (h : '@' ∉ name) :
    afterFirstAt (name ++ '@' :: rest) = rest := by
  induction name with
  | nil => simp [afterFirstAt, List.dropWhile]
  | cons a t ih =>
    have ha : a ≠ '@' := fun heq => h (heq ▸ List.mem_cons_self a t)
    have ht : '@' ∉ t := fun hmem => h (List.mem_cons_of_mem a hmem)
    unfold afterFirstAt at ih ⊢
    rw [List.cons_append, List.dropWhile_cons]
    simp only [ha, decide_not]
    simpa using ih ht

/-- `Backend.Delete` removes exactly the objects under the deleted key. -/
theorem mem_backendDelete (b : Backend) (id : List Char) (o : StoredObject) :
    o ∈ backendDelete b id ↔ o ∈ b ∧ o.meta.id ≠ id := by
  simp [backendDelete, List.mem_filter]

/-- Membership after deleting every version key in a list. -/
theorem mem_foldl_backendDelete (s : List Char) (vs : List VersionInfo) :
    ∀ (b : Backend) (o : StoredObject),
      (o ∈ vs.foldl
        (fun acc v => backendDelete acc (s ++ '@' :: v.version)) b) ↔
      (o ∈ b ∧ ∀ v ∈ vs, o.meta.id ≠ s ++ '@' :: v.version) := by
  induction vs with
  | nil => simp
  | cons v vs ih =>
    intro b o
    rw [List.foldl_cons, ih, mem_backendDelete]
    constructor
    · rintro ⟨⟨h1, h2⟩, h3⟩
      refine ⟨h1, fun w hw => ?_⟩
      rcases List.mem_cons.mp hw with rfl | hw
      · exact h2
      · exact h3 w hw
    · rintro ⟨h1, h2⟩
      exact ⟨⟨h1, h2 v (List.mem_cons_self ..)⟩,
        fun w hw => h2 w (List.mem_cons_of_mem _ hw)⟩

/-- The running-maximum fold of `GetLatestVersion` returns its starting
point or an element of the list. -/
theorem foldl_latest_mem (vs : List VersionInfo) :
    ∀ acc : VersionInfo,
      (vs.foldl (fun latest v =>
        if latest.createdAt < v.createdAt then v else latest) acc) = acc ∨
      (vs.foldl (fun latest v =>
        if latest.createdAt < v.createdAt then v else latest) acc) ∈ vs := by
  induction vs with
  | nil => intro acc; exact Or.inl rfl
  | cons v vs ih =>
    intro acc
    rw [List.foldl_cons]
    rcases ih (if acc.createdAt < v.createdAt then v else acc) with h | h
    · rw [h]
      split
      · exact Or.inr (List.mem_cons_self ..)
      · exact Or.inl rfl
    · exact Or.inr (List.mem_cons_of_mem _ h)

/-- The running maximum never decreases below its starting point. -/
theorem foldl_latest_ge_acc (vs : List VersionInfo) :
    ∀ acc : VersionInfo, acc.createdAt ≤
      (vs.foldl (fun latest v =>
        if latest.createdAt < v.createdAt then v else latest) acc).createdAt := by
  induction vs with
  | nil => intro acc; exact le_rfl
  | cons v vs ih =>
    intro acc
    rw [List.foldl_cons]
    refine le_trans ?_ (ih _)
    split
    · rename_i h; exact le_of_lt h
    · exact le_rfl

/-- Every list element's `createdAt` is bounded by the fold result's. -/
theorem foldl_latest_ge (vs : List VersionInfo) :
    ∀ (acc w : VersionInfo), w ∈ vs → w.createdAt ≤
      (vs.foldl (fun latest v =>
        if latest.createdAt < v.createdAt then v else latest) acc).createdAt := by
  induction vs with
  | nil => intro _ _ h; cases h
  | cons v vs ih =>
    intro acc w hw
    rw [List.foldl_cons]
    rcases List.mem_cons.mp hw with rfl | hw
    · refine le_trans ?_ (foldl_latest_ge_acc vs _)
      split
      · exact le_rfl
      · rename_i h; omega
    · exact ih _ w hw

/-- `GetLatestVersion` on a name with versions returns the token of a
listed version whose `createdAt` is maximal. -/
theorem getLatestVersion_spec (b : Backend) (name : List Char)
    (hne : listVersions b name ≠ []) :
    ∃ v ∈ listVersions b name,
      getLatestVersion b name = .ok v.version ∧
      ∀ w ∈ listVersions b name, w.createdAt ≤ v.createdAt := by
  unfold getLatestVersion
  cases hl : listVersions b name with
  | nil => exact absurd hl hne
  | cons v0 tl =>
    refine ⟨(v0 :: tl).foldl (fun latest v =>
      if latest.createdAt < v.createdAt then v else latest) v0, ?_, rfl, ?_⟩
    · rcases foldl_latest_mem (v0 :: tl) v0 with h | h
      · rw [h]; exact List.mem_cons_self ..
      · exact h
    · intro w hw
      exact foldl_latest_ge (v0 :: tl) v0 w hw

/-- If some stored object has the requested id, `Retrieve` succeeds. -/
theorem backendRetrieve_mem (b : Backend) (id : List Char)
    (h : ∃ o ∈ b, o.meta.id = id) :
    ∃ o, backendRetrieve b id = some o ∧ backendRetrieveE b id = .ok o := by
  have hs : (b.find? (fun o => decide (o.meta.id = id))).isSome := by
    rw [List.find?_isSome]
    obtain ⟨o, ho, hid⟩ := h
    exact ⟨o, ho, by simp [hid]⟩
  obtain ⟨o, ho⟩ := Option.isSome_iff_exists.mp hs
  refine ⟨o, ho, ?_⟩
  unfold backendRetrieveE
  rw [show backendRetrieve b id = some o from ho]

/-- C6: `GetSnapshot` with a bare (separator-free, already-clean) name that
has at least one stored version retrieves the key `name@token` whose
listed `createdAt` is maximal (the metadata timestamp, not the lexically
greatest token), and the retrieval succeeds; `GetSnapshot` with a
versioned `name@token` input performs exactly the direct key lookup. -/
theorem c6_get_snapshot_resolution (b : Backend) (name : List Char)
    (hclean : cleanSnapshotName name = name) (hat : '@' ∉ name)
    (hne : listVersions b name ≠ []) :
    (∃ v ∈ listVersions b name,
      (∀ w ∈ listVersions b name, w.createdAt ≤ v.createdAt) ∧
      getSnapshot b name = backendRetrieveE b (name ++ '@' :: v.version) ∧
      ∃ o, backendRetrieve b (name ++ '@' :: v.version) = some o ∧
        getSnapshot b name = .ok o) ∧
    (∀ versioned : List Char, cleanSnapshotName versioned = versioned →
      '@' ∈ versioned →
      getSnapshot b versioned = backendRetrieveE b versioned) := by
  constructor
  · obtain ⟨v, hv, hlv, hmax⟩ := getLatestVersion_spec b name hne
    have hget : getSnapshot b name =
        backendRetrieveE b (name ++ '@' :: v.version) := by
      unfold getSnapshot
      simp only []
      rw [hclean, if_neg hat, hlv]
    refine ⟨v, hv, hmax, hget, ?_⟩
    obtain ⟨m, hm, hpfx, hveq⟩ := (mem_listVersions b name v).mp hv
    rw [hclean] at hpfx
    obtain ⟨o, ho, hometa⟩ := List.mem_map.mp hm
    obtain ⟨t, ht⟩ := List.isPrefixOf_iff_prefix.mp hpfx
    have hid : m.id = name ++ '@' :: t := by
      rw [← ht, List.append_assoc]
      rfl
    have hver : v.version = t := by
      rw [hveq]
      simp only []
      rw [hid, afterFirstAt_append name t hat]
    obtain ⟨o2, ho2, hoE⟩ := backendRetrieve_mem b (name ++ '@' :: v.version)
      ⟨o, ho, by rw [hometa, hid, hver]⟩
    exact ⟨o2, ho2, hget.trans hoE⟩
  · intro versioned hcl hin
    unfold getSnapshot
    simp only []
    rw [hcl, if_pos hin]

/-- A concrete two-version backend used to exercise the versioning layer:
snapshot `b` stored twice, the second version newer. -/
def sampleBackend : Backend :=
  [⟨⟨"b@20240101-000000".toList, 1, 10, [], "20240101-000000".toList,
      false⟩, [1]⟩,
   ⟨⟨"b@20240102-000000".toList, 2, 20, [], "20240102-000000".toList,
      false⟩, [2]⟩]

/-- Witness for C6 on the concrete backend. -/
theorem c6_get_snapshot_resolution_witness :
    (∃ v ∈ listVersions sampleBackend "b".toList,
      (∀ w ∈ listVersions sampleBackend "b".toList,
        w.createdAt ≤ v.createdAt) ∧
      getSnapshot sampleBackend "b".toList =
        backendRetrieveE sampleBackend ("b".toList ++ '@' :: v.version) ∧
      ∃ o, backendRetrieve sampleBackend ("b".toList ++ '@' :: v.version) =
          some o ∧
        getSnapshot sampleBackend "b".toList = .ok o) ∧
    (∀ versioned : List Char, cleanSnapshotName versioned = versioned →
      '@' ∈ versioned →
      getSnapshot sampleBackend versioned =
        backendRetrieveE sampleBackend versioned) :=
  c6_get_snapshot_resolution sampleBackend "b".toList (by decide) (by decide)
    (by decide)

/-- C7: `DeleteSnapshot` with a bare (separator-free, already-clean) name
deletes every version stored under that name — a subsequent `ListVersions`
returns empty and no new objects appear; on a name with zero versions it
returns the not-found error (and, returning before any delete, removes
nothing); with a versioned `name@token` input it deletes exactly that key. -/
theorem c7_delete_snapshot (b : Backend) (name : List Char)
    (hclean : cleanSnapshotName name = name) (hat : '@' ∉ name) :
    (listVersions b name ≠ [] → ∃ b2, deleteSnapshot b name = .ok b2 ∧
      listVersions b2 name = [] ∧ ∀ o ∈ b2, o ∈ b) ∧
    (listVersions b name = [] → deleteSnapshot b name =
      .error ("no snapshots found with name " ++ String.mk name)) ∧
    (∀ versioned : List Char, cleanSnapshotName versioned = versioned →
      '@' ∈ versioned →
      deleteSnapshot b versioned = .ok (backendDelete b versioned) ∧
      ∀ o, o ∈ backendDelete b versioned ↔ o ∈ b ∧ o.meta.id ≠ versioned) := by
  refine ⟨?_, ?_, ?_⟩
  · intro hne
    unfold deleteSnapshot
    simp only []
    rw [hclean, if_neg hat]
    cases hl : listVersions b name with
    | nil => exact absurd hl hne
    | cons v0 tl =>
      refine ⟨_, rfl, ?_, ?_⟩
      · rw [List.eq_nil_iff_forall_not_mem]
        intro v hv
        obtain ⟨m, hm, hpfx, hveq⟩ := (mem_listVersions _ name v).mp hv
        rw [hclean] at hpfx
        obtain ⟨o, ho, hometa⟩ := List.mem_map.mp hm
        obtain ⟨hob, hall⟩ :=
          (mem_foldl_backendDelete name (v0 :: tl) b o).mp ho
        obtain ⟨t, ht⟩ := List.isPrefixOf_iff_prefix.mp hpfx
        have hid : m.id = name ++ '@' :: t := by
          rw [← ht, List.append_assoc]
          rfl
        have hvo : (⟨afterFirstAt m.id, m.size, m.createdAt,
            m.description⟩ : VersionInfo) ∈ listVersions b name := by
          apply (mem_listVersions b name _).mpr
          refine ⟨m, List.mem_map.mpr ⟨o, hob, hometa⟩, ?_, rfl⟩
          rw [hclean]
          exact hpfx
        rw [hl] at hvo
        apply hall _ hvo
        show o.meta.id = name ++ '@' :: afterFirstAt m.id
        rw [hometa, hid, afterFirstAt_append name t hat]
      · intro o ho
        exact ((mem_foldl_backendDelete name (v0 :: tl) b o).mp ho).1
  · intro hnil
    unfold deleteSnapshot
    simp only []
    rw [hclean, if_neg hat, hnil]
  · intro versioned hcl hin
    constructor
    · unfold deleteSnapshot
      simp only []
      rw [hcl, if_pos hin]
    · intro o
      exact mem_backendDelete b versioned o

/-- Witness for C7 on the concrete backend (a populated name) and on an
empty backend (a name with zero versions). -/
theorem c7_delete_snapshot_witness :
    (∃ b2, deleteSnapshot sampleBackend "b".toList = .ok b2 ∧
      listVersions b2 "b".toList = [] ∧ ∀ o ∈ b2, o ∈ sampleBackend) ∧
    deleteSnapshot ([] : Backend) "b".toList =
      .error ("no snapshots found with name " ++ String.mk "b".toList) ∧
    deleteSnapshot sampleBackend "b@20240101-000000".toList =
      .ok (backendDelete sampleBackend "b@20240101-000000".toList) :=
  ⟨(c7_delete_snapshot sampleBackend "b".toList (by decide) (by decide)).1
      (by decide),
   (c7_delete_snapshot ([] : Backend) "b".toList (by decide) (by decide)).2.1
      (by decide),
   ((c7_delete_snapshot sampleBackend "b".toList (by decide)
      (by decide)).2.2 "b@20240101-000000".toList (by decide) (by decide)).1⟩

/-! ## C9: ListVersions ordering -/

/-- `filterMap` with an if-guard is filter-then-map. -/
theorem filterMap_if_eq_map_filter (p : BackupMetadata → Bool)
    (f : BackupMetadata → VersionInfo) (l : List BackupMetadata) :
    l.filterMap (fun m => if p m then some (f m) else none) =
      (l.filter p).map f := by
  induction l with
  | nil => rfl
  | cons m l ih =>
    by_cases hp : p m
    · simp [List.filterMap_cons, List.filter_cons, hp, ih]
    · simp [List.filterMap_cons, List.filter_cons, hp, ih]

/-- A backend whose `List` order interleaves creation times: version
tokens `…2` (createdAt 5), `…1` (createdAt 3), `…3` (createdAt 9). -/
def sampleBackendShuffled : Backend :=
  [⟨⟨"b@20240101-000002".toList, 1, 5, [], "20240101-000002".toList,
      false⟩, []⟩,
   ⟨⟨"b@20240101-000001".toList, 1, 3, [], "20240101-000001".toList,
      false⟩, []⟩,
   ⟨⟨"b@20240101-000003".toList, 1, 9, [], "20240101-000003".toList,
      false⟩, []⟩]

/-- Counterexample to C9 as stated: `ListVersions` performs no sorting, so
when the backend's `List` enumeration is not in creation-time order the
returned versions are ordered by neither ascending nor descending
timestamp. -/
theorem c9_counterexample :
    ¬ (listVersions sampleBackendShuffled "b".toList).Pairwise
        (fun v w => v.createdAt ≤ w.createdAt) ∧
    ¬ (listVersions sampleBackendShuffled "b".toList).Pairwise
        (fun v w => w.createdAt ≤ v.createdAt) := by
  constructor <;> decide

/-- C9 (amended): `ListVersions` returns the matching versions in exactly
the backend's `List` order (projecting each matching metadata record,
reordering nothing); whenever the backend enumerates metadata in
nondecreasing `createdAt` order — as the provided backends do for
sequentially stored versions, listing keys lexicographically — the
returned versions are in nondecreasing timestamp order. -/
theorem c9_list_versions_order (b : Backend) (name : List Char) :
    (listVersions b name).map (fun v => v.createdAt) =
      ((backendList b).filter (fun m =>
        (cleanSnapshotName name ++ ['@']).isPrefixOf m.id)).map
        (fun m => m.createdAt) ∧
    ((backendList b).Pairwise (fun m1 m2 => m1.createdAt ≤ m2.createdAt) →
      (listVersions b name).Pairwise
        (fun v w => v.createdAt ≤ w.createdAt)) := by
  have hkey : listVersions b name = ((backendList b).filter (fun m =>
      (cleanSnapshotName name ++ ['@']).isPrefixOf m.id)).map
      (fun m => (⟨afterFirstAt m.id, m.size, m.createdAt,
        m.description⟩ : VersionInfo)) := by
    unfold listVersions
    simp only []
    exact filterMap_if_eq_map_filter _ _ _
  constructor
  · rw [hkey, List.map_map]
    rfl
  · intro hp
    rw [hkey, List.pairwise_map]
    exact List.Pairwise.sublist (List.filter_sublist _) hp

/-- Witness for the amended C9: on the concrete backend whose listing is
in nondecreasing `createdAt` order, versions come back in timestamp
order. -/
theorem c9_list_versions_order_witness :
    (listVersions sampleBackend "b".toList).Pairwise
      (fun v w => v.createdAt ≤ w.createdAt) :=
  (c9_list_versions_order sampleBackend "b".toList).2 (by decide)

/-! ## C8: filesystem Store rollback -/

theorem fsLookup_fsWrite_self (fs : FileSys) (p : List Char) (c : List Nat) :
    fsLookup (fsWrite fs p c) p = some c := by
  unfold fsLookup fsWrite
  rw [List.find?_cons_of_pos _ (by simp)]
  rfl

theorem find?_filter_ne (fs : FileSys) (p q : List Char) (h : q ≠ p) :
    (fs.filter (fun e => decide (e.1 ≠ p))).find?
        (fun e => decide (e.1 = q)) =
      fs.find? (fun e => decide (e.1 = q)) := by
  induction fs with
  | nil => rfl
  | cons e fs ih =>
    by_cases hep : e.1 = p
    · rw [List.filter_cons_of_neg (by simp [hep]),
        List.find?_cons_of_neg _ (by simp [hep]; exact fun hq => h hq.symm)]
      exact ih
    · rw [List.filter_cons_of_pos (by simp [hep])]
      by_cases heq : e.1 = q
      · rw [List.find?_cons_of_pos _ (by simp [heq]),
          List.find?_cons_of_pos _ (by simp [heq])]
      · rw [List.find?_cons_of_neg _ (by simp [heq]),
          List.find?_cons_of_neg _ (by simp [heq])]
        exact ih

theorem fsLookup_fsRemove_self (fs : FileSys) (p : List Char) :
    fsLookup (fsRemove fs p) p = none := by
  unfold fsLookup fsRemove
  rw [List.find?_eq_none.mpr]
  · rfl
  · intro e he
    have h2 := (List.mem_filter.mp he).2
    simp at h2 ⊢
    exact h2

theorem fsLookup_fsRemove_ne (fs : FileSys) (p q : List Char) (h : q ≠ p) :
    fsLookup (fsRemove fs p) q = fsLookup fs q := by
  unfold fsLookup fsRemove
  rw [find?_filter_ne fs p q h]

theorem fsLookup_fsWrite_ne (fs : FileSys) (p q : List Char) (c : List Nat)
    (h : q ≠ p) :
    fsLookup (fsWrite fs p c) q = fsLookup fs q := by
  unfold fsLookup fsWrite
  rw [List.find?_cons_of_neg _ (by simp; exact fun hq => h hq.symm),
    find?_filter_ne fs p q h]

/-- C8: the filesystem backend's `Store` is all-or-nothing.  Starting from
a state with neither the data file nor the metadata file present for the
id, if any step fails (creating the data file, copying the data stream,
creating the metadata file, or encoding the metadata), every file written
so far is removed before the error returns — afterwards neither file
exists; and on success both files hold their contents. -/
theorem c8_local_store_all_or_nothing (fs : FileSys)
    (basePath id : List Char) (data meta : List Nat) (f : StoreFaults)
    (hd : fsLookup fs ((basePath ++ '/' :: id) ++ ".tar.gz".toList) = none)
    (hm : fsLookup fs ((basePath ++ '/' :: id) ++ ".json".toList) = none) :
    ((localStore fs basePath id data meta f).2 ≠ none →
      fsLookup (localStore fs basePath id data meta f).1
          ((basePath ++ '/' :: id) ++ ".tar.gz".toList) = none ∧
      fsLookup (localStore fs basePath id data meta f).1
          ((basePath ++ '/' :: id) ++ ".json".toList) = none) ∧
    ((localStore fs basePath id data meta f).2 = none →
      fsLookup (localStore fs basePath id data meta f).1
          ((basePath ++ '/' :: id) ++ ".tar.gz".toList) = some data ∧
      fsLookup (localStore fs basePath id data meta f).1
          ((basePath ++ '/' :: id) ++ ".json".toList) = some meta) := by
  have hne : ((basePath ++ '/' :: id) ++ ".tar.gz".toList) ≠
      ((basePath ++ '/' :: id) ++ ".json".toList) := by
    intro h
    exact absurd (List.append_cancel_left h) (by decide)
  have hne2 : ((basePath ++ '/' :: id) ++ ".json".toList) ≠
      ((basePath ++ '/' :: id) ++ ".tar.gz".toList) := fun h => hne h.symm
  by_cases h1 : f.createDataFails
  · constructor
    · intro _
      unfold localStore
      rw [if_pos h1]
      exact ⟨hd, hm⟩
    · intro hnone
      unfold localStore at hnone
      rw [if_pos h1] at hnone
      simp at hnone
  · by_cases h2 : f.copyDataFails
    · constructor
      · intro _
        unfold localStore
        simp only []
        rw [if_neg h1, if_pos h2]
        refine ⟨fsLookup_fsRemove_self _ _, ?_⟩
        rw [fsLookup_fsRemove_ne _ _ _ hne2, fsLookup_fsWrite_ne _ _ _ _ hne2]
        exact hm
      · intro hnone
        unfold localStore at hnone
        simp only [] at hnone
        rw [if_neg h1, if_pos h2] at hnone
        simp at hnone
    · by_cases h3 : f.createMetaFails
      · constructor
        · intro _
          unfold localStore
          simp only []
          rw [if_neg h1, if_neg h2, if_pos h3]
          refine ⟨fsLookup_fsRemove_self _ _, ?_⟩
          rw [fsLookup_fsRemove_ne _ _ _ hne2,
            fsLookup_fsWrite_ne _ _ _ _ hne2,
            fsLookup_fsWrite_ne _ _ _ _ hne2]
          exact hm
        · intro hnone
          unfold localStore at hnone
          simp only [] at hnone
          rw [if_neg h1, if_neg h2, if_pos h3] at hnone
          simp at hnone
      · by_cases h4 : f.encodeMetaFails
        · constructor
          · intro _
            unfold localStore
            simp only []
            rw [if_neg h1, if_neg h2, if_neg h3, if_pos h4]
            constructor
            · rw [fsLookup_fsRemove_ne _ _ _ hne]
              exact fsLookup_fsRemove_self _ _
            · exact fsLookup_fsRemove_self _ _
          · intro hnone
            unfold localStore at hnone
            simp only [] at hnone
            rw [if_neg h1, if_neg h2, if_neg h3, if_pos h4] at hnone
            simp at hnone
        · constructor
          · intro herr
            unfold localStore at herr
            simp only [] at herr
            rw [if_neg h1, if_neg h2, if_neg h3, if_neg h4] at herr
            simp at herr
          · intro _
            unfold localStore
            simp only []
            rw [if_neg h1, if_neg h2, if_neg h3, if_neg h4]
            constructor
            · rw [fsLookup_fsWrite_ne _ _ _ _ hne,
                fsLookup_fsWrite_ne _ _ _ _ hne]
              exact fsLookup_fsWrite_self _ _ _
            · exact fsLookup_fsWrite_self _ _ _

/-- Witness for C8: a failing metadata encode rolls both files back, and a
fault-free store leaves both files present. -/
theorem c8_local_store_all_or_nothing_witness :
    (fsLookup (localStore [] "base".toList "x".toList [1] [2]
        ⟨false, false, false, true⟩).1
        (("base".toList ++ '/' :: "x".toList) ++ ".tar.gz".toList) = none ∧
      fsLookup (localStore [] "base".toList "x".toList [1] [2]
        ⟨false, false, false, true⟩).1
        (("base".toList ++ '/' :: "x".toList) ++ ".json".toList) = none) ∧
    (fsLookup (localStore [] "base".toList "x".toList [1] [2]
        ⟨false, false, false, false⟩).1
        (("base".toList ++ '/' :: "x".toList) ++ ".tar.gz".toList) =
        some [1] ∧
      fsLookup (localStore [] "base".toList "x".toList [1] [2]
        ⟨false, false, false, false⟩).1
        (("base".toList ++ '/' :: "x".toList) ++ ".json".toList) =
        some [2]) :=
  ⟨(c8_local_store_all_or_nothing [] "base".toList "x".toList [1] [2]
      ⟨false, false, false, true⟩ (by decide) (by decide)).1 (by decide),
   (c8_local_store_all_or_nothing [] "base".toList "x".toList [1] [2]
      ⟨false, false, false, false⟩ (by decide) (by decide)).2 (by decide)⟩
